import Mathlib

/-!
# Verification of the crewAI-rust content-addressed blackboard

Shallow embedding of `src/lib/crewai-rust/src/blackboard/` (entry.rs,
snapshot.rs, hashed.rs, cache.rs, store.rs, mod.rs) and proofs about the
spec's claims over it.

Modelling conventions:
* Rust `u64` values are `Nat`, reduced mod `2 ^ 64` wherever the source
  performs wrapping/rotating arithmetic (the SipHash code); counters that
  realistically never overflow (`CacheEfficiency` token tallies, the epoch)
  are plain `Nat` additions.
* `chrono::DateTime<Utc>` instants and `chrono::Duration` values are `Int`
  milliseconds; `chrono::Duration::seconds s` is `1000 * s` and
  `chrono::Duration::max_value()` is `i64::MAX` milliseconds.
* `f64` confidence values are `ℚ`; the entries exercised here use exactly
  representable values (0, 1/2, 1) where `f64` and `ℚ` comparison agree.
* `DashMap` is an association list with unique keys.  Where the source
  iterates a `DashMap` (an order the API leaves unspecified), the iteration
  order is either irrelevant to the statement proved, or is passed
  explicitly as a parameter constrained to be a permutation of the map's
  contents (`advanceEpochWith`).
* `std::collections::hash_map::DefaultHasher` is SipHash-1-3 with zero
  keys; it is implemented bit-faithfully below (`siphash13`).
-/

/-- Truncation to 64 bits, used for Rust `u64` wrapping arithmetic. -/
def mask64 (n : Nat) : Nat := n % (2 ^ 64)

/-- Rust `u64::wrapping_add`. -/
def wadd (a b : Nat) : Nat := mask64 (a + b)

/-- Rust `u64::rotate_left`. -/
def rotl (x b : Nat) : Nat :=
  mask64 ((x <<< b) ||| (x >>> (64 - b)))

/-- SipHash internal state: the four 64-bit lanes `v0 v1 v2 v3`. -/
structure SipState where
  v0 : Nat
  v1 : Nat
  v2 : Nat
  v3 : Nat
deriving Repr, DecidableEq

/-- One SipHash round (the `compress!` macro of Rust `std`'s `sip.rs`). -/
def sipRound (s : SipState) : SipState :=
  let v0 := wadd s.v0 s.v1
  let v1 := rotl s.v1 13
  let v1 := v1 ^^^ v0
  let v0 := rotl v0 32
  let v2 := wadd s.v2 s.v3
  let v3 := rotl s.v3 16
  let v3 := v3 ^^^ v2
  let v0 := wadd v0 v3
  let v3 := rotl v3 21
  let v3 := v3 ^^^ v0
  let v2 := wadd v2 v1
  let v1 := rotl v1 17
  let v1 := v1 ^^^ v2
  let v2 := rotl v2 32
  ⟨v0, v1, v2, v3⟩

/-- Initial SipHash state for key `(0, 0)` — what `DefaultHasher::new()`
uses (the four ASCII constants, unmodified by the zero key). -/
def sipInit : SipState :=
  ⟨0x736f6d6570736575, 0x646f72616e646f6d, 0x6c7967656e657261, 0x7465646279746573⟩

/-- Little-endian word from up to 8 bytes. -/
def leWord : List Nat → Nat
  | [] => 0
  | b :: t => (b % 256) + 256 * leWord t

/-- Split a byte stream into full 8-byte blocks plus the remaining tail. -/
def splitBlocks : List Nat → List (List Nat) × List Nat
  | b0 :: b1 :: b2 :: b3 :: b4 :: b5 :: b6 :: b7 :: rest =>
    let (bs, tail) := splitBlocks rest
    ([b0, b1, b2, b3, b4, b5, b6, b7] :: bs, tail)
  | rest => ([], rest)

/-- Feed one 8-byte message word into the state (SipHash-1-3: one
compression round per word). -/
def sipFeed (s : SipState) (m : Nat) : SipState :=
  let s := { s with v3 := s.v3 ^^^ m }
  let s := sipRound s
  { s with v0 := s.v0 ^^^ m }

/-- Model of `DefaultHasher` (SipHash-1-3, zero keys) of a byte stream: what
`hasher.finish()` returns after the stream has been written. -/
def siphash13 (msg : List Nat) : Nat :=
  let (blocks, tail) := splitBlocks msg
  let s := blocks.foldl (fun st bs => sipFeed st (leWord bs)) sipInit
  let b := mask64 (((msg.length % 256) <<< 56) ||| leWord tail)
  let s := sipFeed s b
  let s := { s with v2 := s.v2 ^^^ 0xff }
  let s := sipRound (sipRound (sipRound s))
  s.v0 ^^^ s.v1 ^^^ s.v2 ^^^ s.v3

/-- Model of `u64::to_le_bytes` (also the little-endian `usize` bytes that
`write_usize`/`write_length_prefix` emit on the x86-64 targets the crate
builds for). -/
def leBytes8 (n : Nat) : List Nat :=
  [n % 256, n >>> 8 % 256, n >>> 16 % 256, n >>> 24 % 256,
   n >>> 32 % 256, n >>> 40 % 256, n >>> 48 % 256, n >>> 56 % 256]

/-- UTF-8 encoding of one code point. -/
def utf8EncodeCharBytes (c : Char) : List Nat :=
  let n := c.toNat
  if n < 0x80 then [n]
  else if n < 0x800 then
    [0xC0 ||| (n >>> 6), 0x80 ||| (n &&& 0x3F)]
  else if n < 0x10000 then
    [0xE0 ||| (n >>> 12), 0x80 ||| ((n >>> 6) &&& 0x3F), 0x80 ||| (n &&& 0x3F)]
  else
    [0xF0 ||| (n >>> 18), 0x80 ||| ((n >>> 12) &&& 0x3F),
     0x80 ||| ((n >>> 6) &&& 0x3F), 0x80 ||| (n &&& 0x3F)]

/-- UTF-8 bytes of a string (Rust `str::as_bytes`). -/
def utf8Bytes (s : String) : List Nat :=
  s.data.flatMap utf8EncodeCharBytes

/-- A 32-byte digest (`[u8; 32]`), as its list of byte values. -/
abbrev Hash32 := List Nat

/-- Hex digit characters. -/
def hexDigit (n : Nat) : Char :=
  "0123456789abcdef".toList.getD n '0'

/-- Model of `hex_encode` from entry.rs: two lowercase hex digits per byte. -/
def hex_encode (bytes : List Nat) : String :=
  String.mk (bytes.foldr (fun b acc => hexDigit (b % 256 / 16) :: hexDigit (b % 256 % 16) :: acc) [])

/-! ## Entry model (entry.rs) -/

/-- Model of `EntryType` from entry.rs.  The source constructor `Partial` is spelled
`PartialEntry` here (the bare word is reserved in this development); all
other names match the source. -/
inductive EntryType where
  | Fact
  | Hypothesis
  | Decision
  | Veto
  | PartialEntry
  | Query
  | Observation
  | Reasoning
deriving Repr, DecidableEq, Inhabited

/-- Model of `EntryTier` from entry.rs. -/
inductive EntryTier where
  | Stm
  | Session
  | Ltm
deriving Repr, DecidableEq, Inhabited

/-- Model of `chrono::Duration::max_value()` in milliseconds (`i64::MAX` ms). -/
def durationMaxMs : Int := 9223372036854775807

/-- Model of `chrono::Duration::seconds` in the millisecond model. -/
def durationSeconds (s : Int) : Int := 1000 * s

/-- Rust `u64 as i64` cast (two's-complement reinterpretation). -/
def i64OfU64 (n : Nat) : Int :=
  if n < 2 ^ 63 then (n : Int) else (n : Int) - 2 ^ 64

/-- Model of `BlackboardEntry` from entry.rs.  `metadata` values and `policy_audit`
are opaque to every store operation, so their `serde_json::Value` payloads
are modelled as strings.  `confidence` (`f64`) is a rational, `created_at`
(`DateTime<Utc>`) and `ttl` (`Duration`) are millisecond integers. -/
structure BlackboardEntry where
  content_hash : Hash32
  author : String
  entry_type : EntryType
  tier : EntryTier
  content : String
  metadata : List (String × String)
  parent_hash : Option Hash32
  supersedes : List Hash32
  evidence : List Hash32
  prompt_prefix_hash : Option Hash32
  policy_audit : Option String
  confidence : ℚ
  created_at : Int
  ttl : Option Int
  tombstoned : Bool
deriving Repr, DecidableEq

/-- Model of `BlackboardEntry::compute_hash` from entry.rs: four successive
`DefaultHasher::finish()` reads over the growing byte stream fed by
`author.hash`, `content.hash`, the optional parent array, and the trailing
length writes.  `str::hash` feeds the UTF-8 bytes plus a `0xff` terminator;
`[u8; N]`/`&[u8]` hashing feeds a length prefix then the bytes;
`usize::hash` feeds eight little-endian bytes. -/
def compute_hash (author : String) (content : String) (parent : Option Hash32) : Hash32 :=
  let m1 := utf8Bytes author ++ [0xff] ++ utf8Bytes content ++ [0xff] ++
    (match parent with
     | some p => leBytes8 32 ++ p.map (fun b => b % 256)
     | none => [])
  let h1 := siphash13 m1
  let m2 := m1 ++ leBytes8 (utf8Bytes content).length
  let h2 := siphash13 m2
  let m3 := m2 ++ leBytes8 (utf8Bytes author).length
  let h3 := siphash13 m3
  let m4 := m3 ++
    (match parent with
     | some p => leBytes8 8 ++ (p.map (fun b => b % 256)).take 8
     | none => [])
  let h4 := siphash13 m4
  leBytes8 h1 ++ leBytes8 h2 ++ leBytes8 h3 ++ leBytes8 h4

/-- Model of `BlackboardEntry::new` from entry.rs (`created_at = Utc::now()` becomes
an explicit parameter). -/
def BlackboardEntry.new (author : String) (entry_type : EntryType)
    (content : String) (parent_hash : Option Hash32) (created_at : Int) :
    BlackboardEntry :=
  { content_hash := compute_hash author content parent_hash
    author := author
    entry_type := entry_type
    tier := EntryTier.Session
    content := content
    metadata := []
    parent_hash := parent_hash
    supersedes := []
    evidence := []
    prompt_prefix_hash := none
    policy_audit := none
    confidence := 1
    created_at := created_at
    ttl := none
    tombstoned := false }

/-- Model of `BlackboardEntry::is_expired` from entry.rs (`Utc::now()` becomes the
explicit `now` parameter). -/
def BlackboardEntry.is_expired (e : BlackboardEntry) (now : Int)
    (default_stm_ttl : Int) : Bool :=
  if e.tombstoned then true
  else
    let ttl := e.ttl.getD (match e.tier with
      | EntryTier.Stm => default_stm_ttl
      | EntryTier.Session => durationMaxMs
      | EntryTier.Ltm => durationMaxMs)
    decide (now - e.created_at > ttl)

/-- Model of `BlackboardEntry::hash_hex` from entry.rs. -/
def BlackboardEntry.hash_hex (e : BlackboardEntry) : String :=
  hex_encode e.content_hash

/-! ## Snapshot and thumbprint (snapshot.rs) -/

/-- Model of `CacheThumbprint` from snapshot.rs. -/
structure CacheThumbprint where
  bytes : Hash32
deriving Repr, DecidableEq

/-- Model of `CacheThumbprint::from_entries` from snapshot.rs: `DefaultHasher` fed
each entry's `content_hash` (array hashing: 8-byte length prefix then the
32 bytes), then `entries.len()`, with intermediate `finish()` reads; the
last 16 bytes come from re-finishing after hashing the first eight bytes
of up to two leading entries' hashes (slice hashing: length prefix then
bytes). -/
def CacheThumbprint.from_entries (entries : List BlackboardEntry) : CacheThumbprint :=
  let m1 := entries.foldl
    (fun acc e => acc ++ leBytes8 32 ++ e.content_hash.map (fun b => b % 256)) []
  let h1 := siphash13 m1
  let m2 := m1 ++ leBytes8 entries.length
  let h2 := siphash13 m2
  let m3 := m2 ++ (entries.take 2).foldl
    (fun acc e => acc ++ leBytes8 8 ++ (e.content_hash.map (fun b => b % 256)).take 8) []
  let h3 := siphash13 m3
  let h4 := siphash13 m3
  ⟨leBytes8 h1 ++ leBytes8 h2 ++ leBytes8 h3 ++ leBytes8 h4⟩

/-- Model of `CacheThumbprint::hex`. -/
def CacheThumbprint.hex (t : CacheThumbprint) : String :=
  hex_encode t.bytes

/-- Model of `CacheThumbprint::zero`. -/
def CacheThumbprint.zero : CacheThumbprint :=
  ⟨List.replicate 32 0⟩

/-- The `type_order` array of `render_for_prompt` (snapshot.rs), in source
order: the grouping the implementer listed before storing sections in a
`BTreeMap`. -/
def typeOrder : List (EntryType × String) :=
  [(EntryType.Decision, "Decisions"),
   (EntryType.Fact, "Facts"),
   (EntryType.Hypothesis, "Hypotheses"),
   (EntryType.Observation, "Observations"),
   (EntryType.PartialEntry, "In Progress"),
   (EntryType.Query, "Open Questions"),
   (EntryType.Veto, "Vetoed"),
   (EntryType.Reasoning, "Reasoning Traces")]

/-- Code-point lexicographic comparison of character lists.  On the ASCII
section labels this coincides with Rust's byte-wise `&str` ordering, the
order a `BTreeMap<&str, _>` iterates in. -/
def charListLt : List Char → List Char → Bool
  | [], [] => false
  | [], _ :: _ => true
  | _ :: _, [] => false
  | c :: cs, d :: ds =>
    if c.toNat < d.toNat then true
    else if c.toNat = d.toNat then charListLt cs ds
    else false

/-- Rust `&str` ordering (byte-wise; the labels here are ASCII). -/
def strLt (a b : String) : Bool := charListLt a.data b.data

/-- Insertion into a `BTreeMap<&str, Vec<String>>` model: an association
list kept sorted by key, overwriting an existing key. -/
def btreeInsert (k : String) (v : List String) :
    List (String × List String) → List (String × List String)
  | [] => [(k, v)]
  | (k', v') :: rest =>
    if strLt k k' then (k, v) :: (k', v') :: rest
    else if k = k' then (k, v) :: rest
    else (k', v') :: btreeInsert k v rest

/-- Model of `{:.2}` formatting of an `f64` confidence for the non-negative exact
values used here: scale by 100 and round half-to-even (Rust float
formatting rounds the shortest decimal this way; ties at the binary level
do not arise for the dyadic values exercised), then print two decimals. -/
def fmtConf (q : ℚ) : String :=
  let scaled := q.num.toNat * 100
  let den := q.den
  let quot := scaled / den
  let rem := scaled % den
  let n :=
    if 2 * rem > den then quot + 1
    else if 2 * rem < den then quot
    else if quot % 2 = 0 then quot else quot + 1
  toString (n / 100) ++ "." ++
    (if n % 100 < 10 then "0" else "") ++ toString (n % 100)

/-- The first `n` characters of a string (`&s[..n]` on the ASCII hex
strings sliced here, where bytes and characters coincide). -/
def strTake (s : String) (n : Nat) : String :=
  String.mk (s.data.take n)

/-- One rendered bullet line of `render_for_prompt`. -/
def renderLine (e : BlackboardEntry) : String :=
  "- [" ++ (strTake e.hash_hex 8) ++ "] (" ++ e.author ++ ", conf=" ++
    fmtConf e.confidence ++ "): " ++ e.content

/-- The `sections` value of `render_for_prompt` after the grouping loop: for
each `(EntryType, label)` of `typeOrder`, the non-tombstoned entries of that
type (in input order) are rendered and, when non-empty, inserted into the
`BTreeMap` — so the resulting association list is ordered by label string,
not by `typeOrder` position. -/
def renderSections (entries : List BlackboardEntry) : List (String × List String) :=
  typeOrder.foldl
    (fun sections p =>
      let matching := (entries.filter (fun e => e.entry_type = p.1 && !e.tombstoned)).map renderLine
      if matching = [] then sections else btreeInsert p.2 matching sections)
    []

/-- Model of `BlackboardSnapshot::render_for_prompt` from snapshot.rs: header line,
then each `BTreeMap` section in its iteration (label-sorted) order. -/
def render_for_prompt (entries : List BlackboardEntry) : String :=
  if entries = [] then ""
  else
    let thumbprint := CacheThumbprint.from_entries entries
    let header := "[Blackboard — " ++ toString entries.length ++
      " entries, thumbprint " ++ (strTake thumbprint.hex 8) ++ "]\n"
    (renderSections entries).foldl
      (fun out s =>
        out ++ "\n## " ++ s.1 ++ "\n" ++ String.join (s.2.map (fun i => i ++ "\n")))
      header

/-- Model of `BlackboardSnapshot` from snapshot.rs. -/
structure BlackboardSnapshot where
  epoch : Nat
  entries : List BlackboardEntry
  thumbprint : CacheThumbprint
  rendered : String
deriving Repr, DecidableEq

/-- Model of `BlackboardSnapshot::new`. -/
def BlackboardSnapshot.new (epoch : Nat) (entries : List BlackboardEntry) :
    BlackboardSnapshot :=
  { epoch := epoch
    entries := entries
    thumbprint := CacheThumbprint.from_entries entries
    rendered := render_for_prompt entries }

/-- Model of `BlackboardSnapshot::as_prompt`. -/
def BlackboardSnapshot.as_prompt (s : BlackboardSnapshot) : String :=
  s.rendered

/-! ## Store contract types (store.rs, mod.rs) -/

/-- Model of `BlackboardError` from store.rs. -/
inductive BlackboardError where
  | NotFound (msg : String)
  | PolicyDenied (msg : String)
  | Storage (msg : String)
  | Serialization (msg : String)
  | Lance (msg : String)
  | Sync (msg : String)
deriving Repr, DecidableEq

/-- Equality on `Except` results is decidable (needed to evaluate the
operations' return values on concrete inputs). -/
instance {e a : Type} [DecidableEq e] [DecidableEq a] : DecidableEq (Except e a)
  | Except.error x, Except.error y =>
    if h : x = y then isTrue (by rw [h]) else isFalse (fun hc => h (by cases hc; rfl))
  | Except.error _, Except.ok _ => isFalse (fun hc => Except.noConfusion hc)
  | Except.ok _, Except.error _ => isFalse (fun hc => Except.noConfusion hc)
  | Except.ok x, Except.ok y =>
    if h : x = y then isTrue (by rw [h]) else isFalse (fun hc => h (by cases hc; rfl))

/-- Model of `BlackboardQuery` from store.rs (`min_confidence : f64` as `ℚ`). -/
structure BlackboardQuery where
  text : Option String
  entry_types : Option (List EntryType)
  authors : Option (List String)
  parent_hash : Option Hash32
  include_tombstoned : Bool
  limit : Nat
  min_confidence : ℚ
  min_epoch : Option Nat
deriving Repr, DecidableEq

/-- Model of `BlackboardQuery::default()` (`Default` derive: all options `None`,
`limit = 0`, `min_confidence = 0.0`, `include_tombstoned = false`). -/
def BlackboardQuery.default : BlackboardQuery :=
  { text := none, entry_types := none, authors := none, parent_hash := none
    include_tombstoned := false, limit := 0, min_confidence := 0, min_epoch := none }

/-- Model of `CompactionStats` from store.rs. -/
structure CompactionStats where
  entries_before : Nat
  entries_after : Nat
  tombstoned : Nat
  pruned : Nat
  superseded_removed : Nat
deriving Repr, DecidableEq

/-- The fields of `BlackboardConfig` (mod.rs) that the hashed store reads. -/
structure BlackboardConfig where
  prune_expired : Bool
  separate_db : Bool
  max_entries : Nat
  stm_ttl_seconds : Nat
deriving Repr, DecidableEq

/-! ## Association-list model of `DashMap` -/

/-- Lookup in an association list (a `DashMap` with unique keys). -/
def alookup {κ ν : Type} [DecidableEq κ] (k : κ) : List (κ × ν) → Option ν
  | [] => none
  | p :: t => if p.1 = k then some p.2 else alookup k t

/-- Model of `DashMap::contains_key`. -/
def containsKey {κ ν : Type} [DecidableEq κ] (k : κ) (l : List (κ × ν)) : Bool :=
  (alookup k l).isSome

/-- Model of `DashMap::insert`: overwrite an existing key in place, else append. -/
def ainsert {κ ν : Type} [DecidableEq κ] (k : κ) (v : ν) (l : List (κ × ν)) :
    List (κ × ν) :=
  if containsKey k l then l.map (fun p => if p.1 = k then (k, v) else p)
  else l ++ [(k, v)]

/-- Model of `DashMap::remove` (drops the unique entry for the key, if present). -/
def aremove {κ ν : Type} [DecidableEq κ] (k : κ) (l : List (κ × ν)) :
    List (κ × ν) :=
  l.filter (fun p => p.1 ≠ k)

/-- Model of `entry(k).or_default().push(h)` on a `DashMap<_, Vec<Hash>>` bucket. -/
def bucketPush {κ : Type} [DecidableEq κ] (k : κ) (h : Hash32)
    (l : List (κ × List Hash32)) : List (κ × List Hash32) :=
  match alookup k l with
  | some v => ainsert k (v ++ [h]) l
  | none => l ++ [(k, [h])]

/-- Model of `v.retain(|x| x != &h)` on a bucket, if the bucket exists. -/
def bucketRetain {κ : Type} [DecidableEq κ] (k : κ) (h : Hash32)
    (l : List (κ × List Hash32)) : List (κ × List Hash32) :=
  match alookup k l with
  | some v => ainsert k (v.filter (fun x => x ≠ h)) l
  | none => l

/-! ## The hashed store state (hashed.rs) -/

/-- Model of `HashedBlackboard` state.  The maps are association lists; iteration
order of the real `DashMap` is unspecified, which matters only in
`advance_epoch` (modelled with an explicit order parameter) and the full
scan of `query` (where every property proved here is order-independent). -/
structure HashedBlackboard where
  config : BlackboardConfig
  live : List (Hash32 × BlackboardEntry)
  pending : List (Hash32 × BlackboardEntry)
  by_type : List (EntryType × List Hash32)
  by_author : List (String × List Hash32)
  by_parent : List (Hash32 × List Hash32)
  canonical_order : List Hash32
  epoch : Nat
  cached_snapshot : Option BlackboardSnapshot
deriving Repr, DecidableEq

/-- Model of `HashedBlackboard::new`. -/
def HashedBlackboard.new (config : BlackboardConfig) : HashedBlackboard :=
  { config := config, live := [], pending := [], by_type := [], by_author := []
    by_parent := [], canonical_order := [], epoch := 0, cached_snapshot := none }

/-- Model of `HashedBlackboard::index_entry`. -/
def indexEntry (e : BlackboardEntry) (s : HashedBlackboard) : HashedBlackboard :=
  { s with
    by_type := bucketPush e.entry_type e.content_hash s.by_type
    by_author := bucketPush e.author e.content_hash s.by_author
    by_parent := match e.parent_hash with
      | some parent => bucketPush parent e.content_hash s.by_parent
      | none => s.by_parent }

/-- Model of `HashedBlackboard::deindex_entry`. -/
def deindexEntry (e : BlackboardEntry) (s : HashedBlackboard) : HashedBlackboard :=
  { s with
    by_type := bucketRetain e.entry_type e.content_hash s.by_type
    by_author := bucketRetain e.author e.content_hash s.by_author
    by_parent := match e.parent_hash with
      | some parent => bucketRetain parent e.content_hash s.by_parent
      | none => s.by_parent }

/-- The default-STM TTL the store derives from its config:
`chrono::Duration::seconds(config.stm_ttl_seconds as i64)`. -/
def HashedBlackboard.stmTtl (s : HashedBlackboard) : Int :=
  durationSeconds (i64OfU64 s.config.stm_ttl_seconds)

/-- Model of `HashedBlackboard::build_snapshot`: walk `canonical_order`, keep live,
non-tombstoned, non-expired entries, and build the snapshot at the current
epoch. -/
def buildSnapshot (now : Int) (s : HashedBlackboard) : BlackboardSnapshot :=
  let entries := (s.canonical_order.filterMap (fun h => alookup h s.live)).filter
    (fun e => !e.tombstoned && !e.is_expired now s.stmTtl)
  BlackboardSnapshot.new s.epoch entries

/-- Model of `str::to_lowercase` (character-wise; the entries used here are ASCII,
where this agrees with Rust's Unicode lowercasing). -/
def rustToLowercase (s : String) : String :=
  String.mk (s.toList.map Char.toLower)

/-- Whether the first character list starts the second. -/
def charPrefixOf : List Char → List Char → Bool
  | [], _ => true
  | _ :: _, [] => false
  | a :: as, b :: bs => a = b && charPrefixOf as bs

/-- Model of `str::contains(&str)`: substring search. -/
def rustContains (haystack needle : String) : Bool :=
  let rec go : List Char → Bool
    | [] => charPrefixOf needle.toList []
    | c :: rest => charPrefixOf needle.toList (c :: rest) || go rest
  go haystack.toList

/-! ## Store operations (hashed.rs, impl BlackboardStore) -/

/-- The supersession pass of `post`: for each hash in `entry.supersedes`,
tombstone the matching live entry in place (pending entries are not
touched — the source only calls `self.live.get_mut`). -/
def tombstoneSuperseded (supersedes : List Hash32)
    (live : List (Hash32 × BlackboardEntry)) : List (Hash32 × BlackboardEntry) :=
  supersedes.foldl
    (fun l h => l.map (fun p => if p.1 = h then (p.1, { p.2 with tombstoned := true }) else p))
    live

/-- Model of `HashedBlackboard::post`.  Dedup on existing hash is a no-op returning
the hash; otherwise tombstone superseded live entries, index, stage into
`pending`, and invalidate the cached snapshot.  The source never returns
an error from this function. -/
def post (s : HashedBlackboard) (entry : BlackboardEntry) :
    HashedBlackboard × Except BlackboardError Hash32 :=
  let hash := entry.content_hash
  if containsKey hash s.live || containsKey hash s.pending then
    (s, Except.ok hash)
  else
    let s := { s with live := tombstoneSuperseded entry.supersedes s.live }
    let s := indexEntry entry s
    let s := { s with pending := ainsert hash entry s.pending }
    let s := { s with cached_snapshot := none }
    (s, Except.ok hash)

/-- Model of `HashedBlackboard::get`: live first, then pending. -/
def getOp (s : HashedBlackboard) (hash : Hash32) : Option BlackboardEntry :=
  match alookup hash s.live with
  | some e => some e
  | none => alookup hash s.pending

/-- The residual filter of `HashedBlackboard::query`, applied to every
candidate: tombstone inclusion, expiry, minimum confidence, and lowercase
substring match — the author/parent/type predicates are *not* re-checked
here. -/
def queryFilter (q : BlackboardQuery) (now : Int) (ttl : Int)
    (e : BlackboardEntry) : Bool :=
  if !q.include_tombstoned && e.tombstoned then false
  else if e.is_expired now ttl && !q.include_tombstoned then false
  else if e.confidence < q.min_confidence then false
  else match q.text with
    | some t => rustContains (rustToLowercase e.content) (rustToLowercase t)
    | none => true

/-- Model of `HashedBlackboard::query`: candidate hashes from the first applicable
index (types, then authors, then parent; else a full scan of live then
pending), resolved against live-then-pending, filtered, truncated. -/
def query (s : HashedBlackboard) (q : BlackboardQuery) (now : Int) :
    Except BlackboardError (List BlackboardEntry) :=
  let ttl := s.stmTtl
  let candidate_hashes : Option (List Hash32) :=
    match q.entry_types with
    | some types => some (types.foldl
        (fun acc t => acc ++ ((alookup t s.by_type).getD [])) [])
    | none =>
      match q.authors with
      | some authors => some (authors.foldl
          (fun acc a => acc ++ ((alookup a s.by_author).getD [])) [])
      | none =>
        match q.parent_hash with
        | some parent => (alookup parent s.by_parent).map id
        | none => none
  let entries : List BlackboardEntry :=
    match candidate_hashes with
    | some hashes => hashes.filterMap (fun h =>
        match alookup h s.live with
        | some e => some e
        | none => alookup h s.pending)
    | none => s.live.map Prod.snd ++ s.pending.map Prod.snd
  Except.ok (((entries.filter (queryFilter q now ttl)).take q.limit))

/-- Model of `HashedBlackboard::len`: live plus pending sizes. -/
def HashedBlackboard.len (s : HashedBlackboard) : Nat :=
  s.live.length + s.pending.length

/-- Model of `HashedBlackboard::snapshot`: memoized; on miss, build and cache. -/
def snapshotOp (now : Int) (s : HashedBlackboard) :
    HashedBlackboard × BlackboardSnapshot :=
  match s.cached_snapshot with
  | some snap => (s, snap)
  | none =>
    let snap := buildSnapshot now s
    ({ s with cached_snapshot := some snap }, snap)

/-- Model of `HashedBlackboard::cache_thumbprint`. -/
def cacheThumbprintOp (now : Int) (s : HashedBlackboard) : CacheThumbprint :=
  (snapshotOp now s).2.thumbprint

/-- Model of `HashedBlackboard::advance_epoch`, with the `DashMap` iteration order
of `self.pending.iter()` made explicit: `iter` must be a permutation of
the pending contents (the real map promises no particular order).  Each
pending entry is inserted into live and its hash appended to
`canonical_order`; pending is cleared, the cached snapshot invalidated,
and the epoch bumped. -/
def advanceEpochWith (iter : List (Hash32 × BlackboardEntry))
    (s : HashedBlackboard) : HashedBlackboard :=
  let s := iter.foldl
    (fun st p => { st with
      live := ainsert p.1 p.2 st.live
      canonical_order := st.canonical_order ++ [p.1] }) s
  { s with pending := [], cached_snapshot := none, epoch := s.epoch + 1 }

/-- Model of `HashedBlackboard::tombstone`: flag in live (invalidating the cached
snapshot) or in pending (without invalidating), else `NotFound`. -/
def tombstoneOp (s : HashedBlackboard) (hash : Hash32) :
    HashedBlackboard × Except BlackboardError Unit :=
  if containsKey hash s.live then
    ({ s with
        live := s.live.map (fun p => if p.1 = hash then (p.1, { p.2 with tombstoned := true }) else p)
        cached_snapshot := none }, Except.ok ())
  else if containsKey hash s.pending then
    ({ s with
        pending := s.pending.map (fun p => if p.1 = hash then (p.1, { p.2 with tombstoned := true }) else p) },
      Except.ok ())
  else
    (s, Except.error (BlackboardError.NotFound "Entry not found"))

/-! ## Compaction, clear, import (hashed.rs) -/

/-- The `to_remove` keys of `compact`: live entries that are tombstoned or
expired — physically removed only when `prune_expired` is set (the filter
closure returns `config.prune_expired` in both branches). -/
def compactToRemove (now : Int) (s : HashedBlackboard) : List Hash32 :=
  if s.config.prune_expired then
    ((s.live.filter (fun p => p.2.tombstoned || p.2.is_expired now s.stmTtl)).map Prod.fst)
  else []

/-- The `superseded_to_remove` keys of `compact`: tombstoned live entries
superseded by some non-tombstoned live entry. -/
def compactSuperseded (s : HashedBlackboard) : List Hash32 :=
  ((s.live.filter (fun p =>
      (s.live.any (fun q => q.2.supersedes.contains p.2.content_hash && !q.2.tombstoned))
        && p.2.tombstoned)).map Prod.fst)

/-- One step of the removal loops of `compact`:
`if let Some((_, entry)) = self.live.remove(hash) { self.deindex_entry(&entry) }`,
with the running count of removals that actually happened. -/
def removeStep (acc : HashedBlackboard × Nat) (h : Hash32) : HashedBlackboard × Nat :=
  match alookup h acc.1.live with
  | some e => (deindexEntry e { acc.1 with live := aremove h acc.1.live }, acc.2 + 1)
  | none => acc

/-- A removal loop of `compact` over a list of keys. -/
def removeAllCount (hs : List Hash32) (s : HashedBlackboard) :
    HashedBlackboard × Nat :=
  hs.foldl removeStep (s, 0)

/-- The effect of a removal loop on the live map alone. -/
def removeKeysLive (hs : List Hash32) (l : List (Hash32 × BlackboardEntry)) :
    List (Hash32 × BlackboardEntry) :=
  hs.foldl (fun lv h => aremove h lv) l

/-- The state of `compact` after both removal passes and the
`canonical_order.retain(|h| live.contains_key(h))` rebuild, paired with the
`superseded_removed` counter. -/
def compactMid (now : Int) (s : HashedBlackboard) : HashedBlackboard × Nat :=
  let s1 := (removeAllCount (compactToRemove now s) s).1
  let (s2, ssr) := removeAllCount (compactSuperseded s1) s1
  ({ s2 with canonical_order := s2.canonical_order.filter (fun h => containsKey h s2.live) }, ssr)

/-- The `excess` count of `compact`'s capacity check. -/
def compactExcess (s : HashedBlackboard) : Nat :=
  if s.live.length > s.config.max_entries then s.live.length - s.config.max_entries else 0

/-- The capacity-enforcement step of `compact`: when live exceeds
`max_entries`, evict the first `excess` hashes of `canonical_order` and
drain that many positions from the front of the order.  Returns the number
of entries actually removed (each bumps `pruned`). -/
def compactEvict (s : HashedBlackboard) : HashedBlackboard × Nat :=
  if s.live.length > s.config.max_entries then
    let excess := s.live.length - s.config.max_entries
    let to_evict := s.canonical_order.take excess
    let (s', cnt) := removeAllCount to_evict s
    ({ s' with canonical_order := s'.canonical_order.drop to_evict.length }, cnt)
  else (s, 0)

/-- Model of `HashedBlackboard::compact`. -/
def compact (now : Int) (s : HashedBlackboard) :
    HashedBlackboard × Except BlackboardError CompactionStats :=
  let before := s.live.length
  let tomb := (s.live.filter (fun p => p.2.tombstoned)).length
  let expired := (s.live.filter (fun p => !p.2.tombstoned && p.2.is_expired now s.stmTtl)).length
  let (mid, ssr) := compactMid now s
  let (fin0, evicted) := compactEvict mid
  let fin := { fin0 with cached_snapshot := none }
  (fin, Except.ok
    { entries_before := before
      entries_after := fin.live.length
      tombstoned := tomb
      pruned := expired + evicted
      superseded_removed := ssr })

/-- Model of `HashedBlackboard::clear`: empty every map, the order, and the cached
snapshot.  The epoch counter is not touched. -/
def clear (s : HashedBlackboard) : HashedBlackboard :=
  { s with
    live := []
    pending := []
    by_type := []
    by_author := []
    by_parent := []
    canonical_order := []
    cached_snapshot := none }

/-- Model of `HashedBlackboard::export_entries` (ignores `since_epoch`). -/
def exportEntries (s : HashedBlackboard) : List BlackboardEntry :=
  s.live.map Prod.snd

/-- Model of `HashedBlackboard::import_entries`: for each entry whose stored
`content_hash` is in neither live nor pending, index it and stage it into
pending, collecting the hash; the stored hash is never recomputed or
validated, and the function never returns an error. -/
def import_entries (s : HashedBlackboard) (entries : List BlackboardEntry) :
    HashedBlackboard × Except BlackboardError (List Hash32) :=
  let (s, imported) := entries.foldl
    (fun acc entry =>
      let hash := entry.content_hash
      if !containsKey hash acc.1.live && !containsKey hash acc.1.pending then
        let st := indexEntry entry acc.1
        (({ st with pending := ainsert hash entry st.pending }), acc.2 ++ [hash])
      else acc)
    (s, [])
  let s := if imported ≠ [] then { s with cached_snapshot := none } else s
  (s, Except.ok imported)

/-! ## Cache efficiency counter (cache.rs) -/

/-- Model of `CacheEfficiency` from cache.rs (`u64` tallies as `Nat`). -/
structure CacheEfficiency where
  total_prompt_tokens : Nat
  cached_tokens : Nat
  fresh_tokens : Nat
  cache_hits : Nat
  cache_misses : Nat
  active_thumbprint : Option CacheThumbprint
deriving Repr, DecidableEq

/-- Model of `CacheEfficiency::default()`. -/
def CacheEfficiency.default : CacheEfficiency :=
  { total_prompt_tokens := 0, cached_tokens := 0, fresh_tokens := 0
    cache_hits := 0, cache_misses := 0, active_thumbprint := none }

/-- Model of `CacheEfficiency::record_call`: `fresh_tokens` grows by
`total_prompt.saturating_sub(cached)` (exactly `Nat` subtraction). -/
def CacheEfficiency.record_call (c : CacheEfficiency) (total_prompt cached : Nat) :
    CacheEfficiency :=
  { c with
    total_prompt_tokens := c.total_prompt_tokens + total_prompt
    cached_tokens := c.cached_tokens + cached
    fresh_tokens := c.fresh_tokens + (total_prompt - cached)
    cache_hits := if cached > 0 then c.cache_hits + 1 else c.cache_hits
    cache_misses := if cached > 0 then c.cache_misses else c.cache_misses + 1 }

/-! ## Well-formedness of a store state

Every reachable `HashedBlackboard` satisfies this: entries enter `live`
only through `advance_epoch`, which appends the hash to `canonical_order`
in the same step, and removal sites (`compact`, `clear`) keep the order in
sync; `post`'s dedup check keeps a hash from being staged twice. -/

/-- Key uniqueness of `live` and of `canonical_order`, and coverage of the
live keys by the canonical order. -/
def Wf (s : HashedBlackboard) : Prop :=
  (s.live.map Prod.fst).Nodup ∧ s.canonical_order.Nodup ∧
    ∀ p ∈ s.live, p.1 ∈ s.canonical_order

instance (s : HashedBlackboard) : Decidable (Wf s) := by
  unfold Wf
  infer_instance

/-! ## Concrete fixtures used by the counterexamples and witnesses -/

/-- The default `BlackboardConfig` of mod.rs with no environment overrides:
`prune_expired = false`, `separate_db = true`, `max_entries = 10_000`,
`stm_ttl_seconds = 3600`. -/
def cfgDefault : BlackboardConfig :=
  { prune_expired := false, separate_db := true, max_entries := 10000
    stm_ttl_seconds := 3600 }

/-- An all-zero 32-byte digest. -/
def hashZeros : Hash32 := List.replicate 32 0

/-- A 32-byte digest whose first byte is 1. -/
def hashOne : Hash32 := 1 :: List.replicate 31 0

/-- A 32-byte digest whose first byte is 10. -/
def hA : Hash32 := 10 :: List.replicate 31 0

/-- A 32-byte digest whose first byte is 11 (so `hA` precedes `hB` in byte
order). -/
def hB : Hash32 := 11 :: List.replicate 31 0

/-- An entry with the given stored hash, type, author and content, and all
other fields as `BlackboardEntry::new` defaults them (`Session` tier,
confidence 1.0, created at time 0). -/
def testEntry (h : Hash32) (ty : EntryType) (a c : String) : BlackboardEntry :=
  { content_hash := h, author := a, entry_type := ty, tier := EntryTier.Session
    content := c, metadata := [], parent_hash := none, supersedes := []
    evidence := [], prompt_prefix_hash := none, policy_audit := none
    confidence := 1, created_at := 0, ttl := none, tombstoned := false }

/-- A `Partial`-kind (In Progress) entry. -/
def inProgressEntry : BlackboardEntry :=
  testEntry hashZeros EntryType.PartialEntry "A" "p"

/-- An `Observation`-kind entry. -/
def observationEntry : BlackboardEntry :=
  testEntry hashOne EntryType.Observation "B" "o"

/-- A `Veto`-kind entry. -/
def vetoEntry : BlackboardEntry :=
  testEntry hashZeros EntryType.Veto "A" "v"

/-- A `Reasoning`-kind entry. -/
def reasoningEntry : BlackboardEntry :=
  testEntry hashOne EntryType.Reasoning "B" "r"

/-- A fact by author `A`. -/
def factA : BlackboardEntry := testEntry hA EntryType.Fact "A" "alpha"

/-- A fact by author `B`. -/
def factB : BlackboardEntry := testEntry hB EntryType.Fact "B" "beta"

/-- A fresh store that has imported `factA` and `factB` (both now pending). -/
def storeImported : HashedBlackboard :=
  (import_entries (HashedBlackboard.new cfgDefault) [factA, factB]).1

/-- Pending iteration order `hA` before `hB` (ascending hash byte order). -/
def iterAsc : List (Hash32 × BlackboardEntry) := [(hA, factA), (hB, factB)]

/-- Pending iteration order `hB` before `hA` (descending hash byte order). -/
def iterDesc : List (Hash32 × BlackboardEntry) := [(hB, factB), (hA, factA)]

/-- Byte-lexicographic order on digests (`[u8; 32]`'s derived `Ord`). -/
def hashLeBytes : Hash32 → Hash32 → Bool
  | [], [] => true
  | [], _ :: _ => true
  | _ :: _, [] => false
  | a :: as, b :: bs => if a < b then true else if a = b then hashLeBytes as bs else false

/-- Whether a hash sequence is in ascending byte order. -/
def sortedByHashBytes : List Hash32 → Bool
  | [] => true
  | [_] => true
  | a :: b :: t => hashLeBytes a b && sortedByHashBytes (b :: t)

/-- A store with `factA` staged in pending (posted, epoch not advanced). -/
def storeFactA : HashedBlackboard := (post (HashedBlackboard.new cfgDefault) factA).1

/-- A query asking for Fact entries authored by `B`, limit 10. -/
def queryTypeAuthor : BlackboardQuery :=
  { BlackboardQuery.default with
    entry_types := some [EntryType.Fact], authors := some ["B"], limit := 10 }

/-- A hypothesis by `A` that `entrySupB` will supersede. -/
def entrySupA : BlackboardEntry := testEntry hA EntryType.Hypothesis "A" "maybe"

/-- A hypothesis by `B` whose `supersedes` list names `hA`. -/
def entrySupB : BlackboardEntry :=
  { testEntry hB EntryType.Hypothesis "B" "better" with supersedes := [hA] }

/-- A store with `entrySupA` still pending. -/
def storePendingSup : HashedBlackboard :=
  (post (HashedBlackboard.new cfgDefault) entrySupA).1

/-- A store with `entrySupA` committed to live. -/
def storeLiveSup : HashedBlackboard :=
  advanceEpochWith [(hA, entrySupA)] storePendingSup

/-- An entry whose stored hash (32 bytes of 7) is not the hash recomputed
from its author, content and parent. -/
def badEntry : BlackboardEntry := testEntry (List.replicate 32 7) EntryType.Fact "a" "x"

/-- An `Stm`-tier entry with no explicit TTL, created at time 0. -/
def stmEntry : BlackboardEntry :=
  { testEntry hashZeros EntryType.Observation "A" "obs" with tier := EntryTier.Stm }

/-- The default config with `stm_ttl_seconds = 0` (documented in mod.rs as
"0 = no expiry"). -/
def cfgTtlZero : BlackboardConfig := { cfgDefault with stm_ttl_seconds := 0 }

/-- A store under `cfgTtlZero` holding `stmEntry` live and in order. -/
def storeTtlZero : HashedBlackboard :=
  { HashedBlackboard.new cfgTtlZero with
    live := [(stmEntry.content_hash, stmEntry)]
    canonical_order := [stmEntry.content_hash] }

/-- The default config with `max_entries = 1`. -/
def cfgMaxOne : BlackboardConfig := { cfgDefault with max_entries := 1 }

/-- A store over capacity: two live entries with `max_entries = 1`. -/
def storeOverCap : HashedBlackboard :=
  { HashedBlackboard.new cfgMaxOne with
    live := [(hA, factA), (hB, factB)]
    canonical_order := [hA, hB] }

/-! ## Association-list lemmas -/

section AssocLemmas

variable {κ ν : Type} [DecidableEq κ]

theorem alookup_eq_none_iff {k : κ} :
    ∀ {l : List (κ × ν)}, alookup k l = none ↔ ∀ p ∈ l, p.1 ≠ k := by
  intro l
  induction l with
  | nil => simp [alookup]
  | cons p t ih =>
    by_cases hp : p.1 = k
    · simp [alookup, hp]
    · simp [alookup, hp, ih]

theorem containsKey_iff_mem_keys {k : κ} {l : List (κ × ν)} :
    containsKey k l = true ↔ k ∈ l.map Prod.fst := by
  induction l with
  | nil => simp [containsKey, alookup]
  | cons p t ih =>
    by_cases hp : p.1 = k
    · simp [containsKey, alookup, hp]
    · simpa [containsKey, alookup, hp, Ne.symm hp] using ih

theorem alookup_map_update {k k0 : κ} (f : ν → ν) (l : List (κ × ν)) :
    alookup k (l.map (fun p => if p.1 = k0 then (p.1, f p.2) else p)) =
      if k = k0 then (alookup k l).map f else alookup k l := by
  induction l with
  | nil => by_cases h : k = k0 <;> simp [alookup, h]
  | cons p t ih =>
    by_cases hp : p.1 = k0
    · by_cases hk : p.1 = k
      · have h1 : k = k0 := hk ▸ hp
        simp [alookup, hp, hk, h1]
      · have h1 : ¬k0 = k := fun he => hk (hp.trans he)
        have h2 : ¬k = k0 := fun he => h1 he.symm
        simp [alookup, hp, hk, h1, h2, ih]
    · by_cases hk : p.1 = k
      · have h1 : ¬k = k0 := fun he => hp (hk.trans he)
        simp [alookup, hp, hk, h1]
      · simp [alookup, hp, hk, ih]

theorem alookup_append_of_none {k : κ} {l l2 : List (κ × ν)}
    (h : alookup k l = none) : alookup k (l ++ l2) = alookup k l2 := by
  induction l with
  | nil => simp
  | cons p t ih =>
    by_cases hp : p.1 = k
    · simp [alookup, hp] at h
    · simp only [alookup, hp] at h ⊢
      simp [alookup, hp, ih h]

theorem alookup_ainsert_self (k : κ) (v : ν) (l : List (κ × ν)) :
    alookup k (ainsert k v l) = some v := by
  by_cases hc : containsKey k l
  · unfold ainsert
    rw [if_pos hc]
    unfold containsKey at hc
    induction l with
    | nil => simp [alookup] at hc
    | cons p t ih =>
      by_cases hp : p.1 = k
      · simp [alookup, hp]
      · simp only [alookup, hp] at hc
        simp [alookup, hp, ih hc]
  · unfold ainsert
    rw [if_neg hc]
    have hnone : alookup k l = none := by
      unfold containsKey at hc
      cases h : alookup k l with
      | none => rfl
      | some v' => rw [h] at hc; simp at hc
    rw [alookup_append_of_none hnone]
    simp [alookup]

theorem containsKey_ainsert_self (k : κ) (v : ν) (l : List (κ × ν)) :
    containsKey k (ainsert k v l) = true := by
  simp [containsKey, alookup_ainsert_self]

theorem filter_eq_self_of_alookup_none {k : κ} {l : List (κ × ν)}
    (h : alookup k l = none) : l.filter (fun p => p.1 ≠ k) = l := by
  rw [List.filter_eq_self]
  intro p hp
  simpa using (alookup_eq_none_iff.mp h) p hp

theorem alookup_aremove_ne {k x : κ} (l : List (κ × ν)) (h : k ≠ x) :
    alookup k (aremove x l) = alookup k l := by
  induction l with
  | nil => simp [aremove, alookup]
  | cons p t ih =>
    by_cases hpx : p.1 = x
    · have hstep : aremove x (p :: t) = aremove x t := by
        simp [aremove, List.filter_cons, hpx]
      have hpk : ¬p.1 = k := fun he => h (he ▸ hpx)
      rw [hstep, ih]
      simp [alookup, hpk]
    · have hstep : aremove x (p :: t) = p :: aremove x t := by
        simp [aremove, List.filter_cons, hpx]
      rw [hstep]
      by_cases hpk : p.1 = k
      · simp [alookup, hpk]
      · simp [alookup, hpk, ih]

theorem aremove_length_of_contains {k : κ} {l : List (κ × ν)}
    (hc : containsKey k l = true) (hn : (l.map Prod.fst).Nodup) :
    (aremove k l).length = l.length - 1 := by
  induction l with
  | nil => simp [containsKey, alookup] at hc
  | cons p t ih =>
    by_cases hp : p.1 = k
    · have hnot : alookup k t = none := by
        rw [alookup_eq_none_iff]
        intro q hq hqk
        have : p.1 ∈ t.map Prod.fst := by
          rw [hp, ← hqk]; exact List.mem_map_of_mem _ hq
        exact (List.nodup_cons.mp hn).1 this
      have heq : aremove k t = t :=
        filter_eq_self_of_alookup_none hnot
      have hstep : aremove k (p :: t) = aremove k t := by
        simp [aremove, List.filter_cons, hp]
      rw [hstep, heq]
      simp
    · have hct : containsKey k t = true := by
        simpa [containsKey, alookup, hp] using hc
      have hlen := ih hct (List.nodup_cons.mp hn).2
      have hpos : 0 < t.length := by
        rcases t with _ | ⟨q, t2⟩
        · simp [containsKey, alookup] at hct
        · simp
      have hstep : aremove k (p :: t) = p :: aremove k t := by
        simp [aremove, List.filter_cons, hp]
      rw [hstep]
      simp only [List.length_cons, hlen]
      omega

end AssocLemmas

/-! ## Lemmas about the removal loops of `compact` -/

theorem foldl_removeStep_spec (hs : List Hash32) (acc : HashedBlackboard × Nat) :
    (hs.foldl removeStep acc).1.canonical_order = acc.1.canonical_order ∧
    (hs.foldl removeStep acc).1.config = acc.1.config ∧
    (hs.foldl removeStep acc).1.pending = acc.1.pending ∧
    (hs.foldl removeStep acc).1.epoch = acc.1.epoch ∧
    (hs.foldl removeStep acc).1.live = removeKeysLive hs acc.1.live := by
  induction hs generalizing acc with
  | nil => exact ⟨rfl, rfl, rfl, rfl, rfl⟩
  | cons h t ih =>
    rw [List.foldl_cons]
    cases hl : alookup h acc.1.live with
    | some e =>
      have hstep : removeStep acc h =
          (deindexEntry e { acc.1 with live := aremove h acc.1.live }, acc.2 + 1) := by
        simp [removeStep, hl]
      rw [hstep]
      obtain ⟨h1, h2, h3, h4, h5⟩ := ih
        (deindexEntry e { acc.1 with live := aremove h acc.1.live }, acc.2 + 1)
      exact ⟨h1, h2, h3, h4, by
        rw [h5]
        simp [removeKeysLive, deindexEntry]⟩
    | none =>
      have hstep : removeStep acc h = acc := by
        simp [removeStep, hl]
      rw [hstep]
      obtain ⟨h1, h2, h3, h4, h5⟩ := ih acc
      refine ⟨h1, h2, h3, h4, ?_⟩
      rw [h5]
      have : aremove h acc.1.live = acc.1.live :=
        filter_eq_self_of_alookup_none hl
      simp [removeKeysLive, this]

theorem removeAllCount_spec (hs : List Hash32) (s : HashedBlackboard) :
    (removeAllCount hs s).1.canonical_order = s.canonical_order ∧
    (removeAllCount hs s).1.config = s.config ∧
    (removeAllCount hs s).1.pending = s.pending ∧
    (removeAllCount hs s).1.epoch = s.epoch ∧
    (removeAllCount hs s).1.live = removeKeysLive hs s.live := by
  exact foldl_removeStep_spec hs (s, 0)

theorem removeKeysLive_sublist (hs : List Hash32)
    (l : List (Hash32 × BlackboardEntry)) : (removeKeysLive hs l).Sublist l := by
  induction hs generalizing l with
  | nil => simp [removeKeysLive]
  | cons h t ih =>
    have h1 : removeKeysLive (h :: t) l = removeKeysLive t (aremove h l) := rfl
    rw [h1]
    exact (ih (aremove h l)).trans (List.filter_sublist l)

theorem containsKey_of_sublist {k : Hash32}
    {l1 l2 : List (Hash32 × BlackboardEntry)} (hs : l1.Sublist l2)
    (h : containsKey k l1 = true) : containsKey k l2 = true := by
  rw [containsKey_iff_mem_keys] at h ⊢
  exact (hs.map Prod.fst).subset h

theorem removeKeysLive_length (hs : List Hash32)
    (l : List (Hash32 × BlackboardEntry)) (h1 : hs.Nodup)
    (h2 : (l.map Prod.fst).Nodup) (h3 : ∀ k ∈ hs, containsKey k l = true) :
    (removeKeysLive hs l).length = l.length - hs.length := by
  induction hs generalizing l with
  | nil => simp [removeKeysLive]
  | cons h t ih =>
    have hstep : removeKeysLive (h :: t) l = removeKeysLive t (aremove h l) := rfl
    rw [hstep]
    have hlen1 : (aremove h l).length = l.length - 1 :=
      aremove_length_of_contains (h3 h (List.mem_cons_self h t)) h2
    have hnd : ((aremove h l).map Prod.fst).Nodup :=
      ((List.filter_sublist l).map Prod.fst).nodup h2
    have hmem : ∀ k ∈ t, containsKey k (aremove h l) = true := by
      intro k hk
      have hne : k ≠ h := by
        intro he
        exact (List.nodup_cons.mp h1).1 (he ▸ hk)
      have := alookup_aremove_ne (k := k) (x := h) l hne
      simpa [containsKey, this] using h3 k (List.mem_cons_of_mem h hk)
    rw [ih (aremove h l) (List.nodup_cons.mp h1).2 hnd hmem, hlen1]
    simp [List.length_cons]
    omega

theorem compactMid_spec (now : Int) (s : HashedBlackboard) :
    (compactMid now s).1.live.Sublist s.live ∧
    (compactMid now s).1.canonical_order =
      s.canonical_order.filter (fun h => containsKey h (compactMid now s).1.live) ∧
    (compactMid now s).1.config = s.config := by
  obtain ⟨c1, c2, _, _, l1⟩ := removeAllCount_spec (compactToRemove now s) s
  obtain ⟨c1', c2', _, _, l1'⟩ :=
    removeAllCount_spec (compactSuperseded (removeAllCount (compactToRemove now s) s).1)
      (removeAllCount (compactToRemove now s) s).1
  refine ⟨?_, ?_, ?_⟩
  · show (removeAllCount _ _).1.live.Sublist s.live
    rw [l1']
    exact (removeKeysLive_sublist _ _).trans (by rw [l1]; exact removeKeysLive_sublist _ _)
  · show (removeAllCount _ _).1.canonical_order.filter _ = _
    rw [c1', c1]
    rfl
  · show (removeAllCount _ _).1.config = s.config
    rw [c2', c2]

/-- After the removal phases, the retained canonical order is a
permutation of the live keys (given well-formedness of the input). -/
theorem compactMid_order_perm (now : Int) (s : HashedBlackboard) (hwf : Wf s) :
    (compactMid now s).1.canonical_order.Perm
      ((compactMid now s).1.live.map Prod.fst) := by
  obtain ⟨hsub, hco, _⟩ := compactMid_spec now s
  have hkeys : ((compactMid now s).1.live.map Prod.fst).Nodup :=
    (hsub.map Prod.fst).nodup hwf.1
  have hco_nodup : (compactMid now s).1.canonical_order.Nodup := by
    rw [hco]
    exact hwf.2.1.filter _
  rw [List.perm_ext_iff_of_nodup hco_nodup hkeys]
  intro a
  constructor
  · intro ha
    rw [hco] at ha
    have := (List.mem_filter.mp ha).2
    exact containsKey_iff_mem_keys.mp (by simpa using this)
  · intro ha
    have hck : containsKey a (compactMid now s).1.live = true :=
      containsKey_iff_mem_keys.mpr ha
    obtain ⟨p, hp, hpa⟩ := List.mem_map.mp ha
    have hps : p ∈ s.live := hsub.subset hp
    have hmemo : a ∈ s.canonical_order := hpa ▸ hwf.2.2 p hps
    rw [hco]
    exact List.mem_filter.mpr ⟨hmemo, by simpa using hck⟩

theorem compactEvict_spec (s : HashedBlackboard)
    (hkeys : (s.live.map Prod.fst).Nodup)
    (hnodup : s.canonical_order.Nodup)
    (hperm : s.canonical_order.Perm (s.live.map Prod.fst)) :
    (compactEvict s).1.live.length ≤ s.config.max_entries ∧
    (compactEvict s).1.canonical_order = s.canonical_order.drop (compactExcess s) := by
  by_cases hgt : s.live.length > s.config.max_entries
  · have heq : compactEvict s =
        ({ (removeAllCount (s.canonical_order.take (s.live.length - s.config.max_entries)) s).1 with
            canonical_order :=
              (removeAllCount (s.canonical_order.take (s.live.length - s.config.max_entries)) s).1.canonical_order.drop
                (s.canonical_order.take (s.live.length - s.config.max_entries)).length },
          (removeAllCount (s.canonical_order.take (s.live.length - s.config.max_entries)) s).2) := by
      simp [compactEvict, hgt]
    have hexc : compactExcess s = s.live.length - s.config.max_entries := by
      simp [compactExcess, hgt]
    obtain ⟨e1, _, _, _, e5⟩ :=
      removeAllCount_spec (s.canonical_order.take (s.live.length - s.config.max_entries)) s
    have hcolen : s.canonical_order.length = s.live.length := by
      rw [hperm.length_eq, List.length_map]
    have htlen : (s.canonical_order.take (s.live.length - s.config.max_entries)).length =
        s.live.length - s.config.max_entries := by
      rw [List.length_take, hcolen]
      omega
    have htnodup : (s.canonical_order.take (s.live.length - s.config.max_entries)).Nodup :=
      (List.take_sublist _ _).nodup hnodup
    have htmem : ∀ k ∈ s.canonical_order.take (s.live.length - s.config.max_entries),
        containsKey k s.live = true := by
      intro k hk
      have hkc : k ∈ s.canonical_order := (List.take_sublist _ _).subset hk
      exact containsKey_iff_mem_keys.mpr (by
        have := hperm.mem_iff.mp hkc
        simpa using this)
    have hlive : (compactEvict s).1.live.length = s.config.max_entries := by
      rw [heq]
      show (removeAllCount _ s).1.live.length = _
      rw [e5, removeKeysLive_length _ _ htnodup hkeys htmem, htlen]
      omega
    refine ⟨le_of_eq hlive, ?_⟩
    rw [heq]
    show (removeAllCount _ s).1.canonical_order.drop _ = _
    rw [e1, htlen, hexc]
  · have heq : compactEvict s = (s, 0) := by
      simp [compactEvict, hgt]
    have hexc : compactExcess s = 0 := by
      simp [compactExcess, hgt]
    rw [heq, hexc]
    refine ⟨?_, by simp⟩
    show s.live.length ≤ s.config.max_entries
    omega

theorem compact_state (now : Int) (s : HashedBlackboard) :
    (compact now s).1 =
      { (compactEvict (compactMid now s).1).1 with cached_snapshot := none } := rfl

/-! ## Lemmas about `post` and supersession -/

theorem ainsert_length_not_contains {κ ν : Type} [DecidableEq κ] {k : κ} {v : ν}
    {l : List (κ × ν)} (hc : containsKey k l = false) :
    (ainsert k v l).length = l.length + 1 := by
  unfold ainsert
  rw [if_neg (by simp [hc])]
  simp

theorem tombstoneSuperseded_length (sup : List Hash32)
    (l : List (Hash32 × BlackboardEntry)) :
    (tombstoneSuperseded sup l).length = l.length := by
  induction sup generalizing l with
  | nil => rfl
  | cons x t ih =>
    have hstep : tombstoneSuperseded (x :: t) l =
        tombstoneSuperseded t
          (l.map (fun p => if p.1 = x then (p.1, { p.2 with tombstoned := true }) else p)) := rfl
    rw [hstep, ih]
    simp

theorem alookup_tomb_update (k k0 : Hash32) (l : List (Hash32 × BlackboardEntry)) :
    alookup k (l.map (fun p => if p.1 = k0 then (p.1, { p.2 with tombstoned := true }) else p)) =
      if k = k0 then (alookup k l).map (fun e => { e with tombstoned := true })
      else alookup k l :=
  alookup_map_update (fun e => { e with tombstoned := true }) l

theorem tombstoneSuperseded_preserves (sup : List Hash32)
    (l : List (Hash32 × BlackboardEntry)) (h : Hash32)
    (hl : (alookup h l).map (fun e => e.tombstoned) = some true) :
    (alookup h (tombstoneSuperseded sup l)).map (fun e => e.tombstoned) = some true := by
  induction sup generalizing l with
  | nil => exact hl
  | cons x t ih =>
    have hstep : tombstoneSuperseded (x :: t) l =
        tombstoneSuperseded t
          (l.map (fun p => if p.1 = x then (p.1, { p.2 with tombstoned := true }) else p)) := rfl
    rw [hstep]
    apply ih
    rw [alookup_tomb_update]
    by_cases hx : h = x
    · rw [if_pos hx]
      cases halk : alookup h l with
      | none => rw [halk] at hl; simp at hl
      | some e' => simp
    · rw [if_neg hx]
      exact hl

theorem tombstoneSuperseded_hits (sup : List Hash32)
    (l : List (Hash32 × BlackboardEntry)) (h : Hash32)
    (hmem : h ∈ sup) (hsome : (alookup h l).isSome = true) :
    (alookup h (tombstoneSuperseded sup l)).map (fun e => e.tombstoned) = some true := by
  induction sup generalizing l with
  | nil => cases hmem
  | cons x t ih =>
    have hstep : tombstoneSuperseded (x :: t) l =
        tombstoneSuperseded t
          (l.map (fun p => if p.1 = x then (p.1, { p.2 with tombstoned := true }) else p)) := rfl
    rw [hstep]
    by_cases hx : h = x
    · apply tombstoneSuperseded_preserves
      rw [alookup_tomb_update, if_pos hx]
      cases halk : alookup h l with
      | none => rw [halk] at hsome; simp at hsome
      | some e' => simp
    · rcases List.mem_cons.mp hmem with hcase | ht
      · exact absurd hcase hx
      · refine ih _ ht ?_
        rw [alookup_tomb_update, if_neg hx]
        exact hsome

theorem post_of_contains (s : HashedBlackboard) (e : BlackboardEntry)
    (hc : (containsKey e.content_hash s.live || containsKey e.content_hash s.pending) = true) :
    post s e = (s, Except.ok e.content_hash) := by
  simp only [post]
  rw [if_pos hc]

theorem post_novel_components (s : HashedBlackboard) (e : BlackboardEntry)
    (hc : ¬(containsKey e.content_hash s.live || containsKey e.content_hash s.pending) = true) :
    (post s e).1.live = tombstoneSuperseded e.supersedes s.live ∧
    (post s e).1.pending = ainsert e.content_hash e s.pending ∧
    (post s e).2 = Except.ok e.content_hash := by
  simp only [post]
  rw [if_neg hc]
  exact ⟨rfl, rfl, rfl⟩

theorem post_returns_hash (s : HashedBlackboard) (e : BlackboardEntry) :
    (post s e).2 = Except.ok e.content_hash := by
  by_cases hc : (containsKey e.content_hash s.live || containsKey e.content_hash s.pending) = true
  · rw [post_of_contains s e hc]
  · exact (post_novel_components s e hc).2.2

theorem post_contains_after (s : HashedBlackboard) (e : BlackboardEntry) :
    (containsKey e.content_hash (post s e).1.live ||
      containsKey e.content_hash (post s e).1.pending) = true := by
  by_cases hc : (containsKey e.content_hash s.live || containsKey e.content_hash s.pending) = true
  · rw [post_of_contains s e hc]
    exact hc
  · obtain ⟨_, hp, _⟩ := post_novel_components s e hc
    rw [hp]
    simp [containsKey_ainsert_self]

/-! ## Claim theorems -/

/-- C6: posting the same entry twice is equivalent to posting it once —
the second `post` returns the same hash and leaves the whole store state
(maps, indexes, order, cache) unchanged, and `len()` grows by at most 1
across the two calls. -/
theorem post_idempotent (s : HashedBlackboard) (e : BlackboardEntry) :
    (post (post s e).1 e).1 = (post s e).1 ∧
    (post (post s e).1 e).2 = Except.ok e.content_hash ∧
    (post s e).2 = Except.ok e.content_hash ∧
    HashedBlackboard.len (post (post s e).1 e).1 ≤ HashedBlackboard.len s + 1 := by
  have h2 := post_of_contains (post s e).1 e (post_contains_after s e)
  refine ⟨by rw [h2], by rw [h2], post_returns_hash s e, ?_⟩
  rw [h2]
  show HashedBlackboard.len (post s e).1 ≤ HashedBlackboard.len s + 1
  by_cases hc : (containsKey e.content_hash s.live || containsKey e.content_hash s.pending) = true
  · rw [post_of_contains s e hc]
    show HashedBlackboard.len s ≤ HashedBlackboard.len s + 1
    omega
  · obtain ⟨hl, hp, _⟩ := post_novel_components s e hc
    have hcp : containsKey e.content_hash s.pending = false := by
      cases hpd : containsKey e.content_hash s.pending
      · rfl
      · exact absurd (by rw [hpd]; simp) hc
    unfold HashedBlackboard.len
    rw [hl, hp, tombstoneSuperseded_length, ainsert_length_not_contains hcp]
    omega

/-- C9: `record_call(total, cached)` with `cached > total` leaves
`fresh_tokens` unchanged (the `saturating_sub` yields zero) while
`total_prompt_tokens` and `cached_tokens` still grow by `total` and
`cached`. -/
theorem record_call_saturating (c : CacheEfficiency) (total cached : Nat)
    (h : cached > total) :
    (c.record_call total cached).fresh_tokens = c.fresh_tokens ∧
    (c.record_call total cached).total_prompt_tokens = c.total_prompt_tokens + total ∧
    (c.record_call total cached).cached_tokens = c.cached_tokens + cached := by
  refine ⟨?_, rfl, rfl⟩
  show c.fresh_tokens + (total - cached) = c.fresh_tokens
  have hz : total - cached = 0 := Nat.sub_eq_zero_of_le (Nat.le_of_lt h)
  rw [hz]
  omega

/-- C9 witness: `record_call 1 2` on the default counter. -/
theorem record_call_saturating_witness :
    2 > 1 ∧
    ((CacheEfficiency.default.record_call 1 2).fresh_tokens =
        CacheEfficiency.default.fresh_tokens ∧
      (CacheEfficiency.default.record_call 1 2).total_prompt_tokens =
        CacheEfficiency.default.total_prompt_tokens + 1 ∧
      (CacheEfficiency.default.record_call 1 2).cached_tokens =
        CacheEfficiency.default.cached_tokens + 2) :=
  ⟨by decide, record_call_saturating CacheEfficiency.default 1 2 (by decide)⟩

/-- C10: `clear` empties live, pending, the three indexes, the canonical
order and the memoized snapshot, but leaves the epoch counter alone; a
snapshot taken afterwards is empty. -/
theorem clear_keeps_epoch (s : HashedBlackboard) (now : Int) :
    (clear s).epoch = s.epoch ∧ (clear s).live = [] ∧ (clear s).pending = [] ∧
    (clear s).by_type = [] ∧ (clear s).by_author = [] ∧ (clear s).by_parent = [] ∧
    (clear s).canonical_order = [] ∧ (clear s).cached_snapshot = none ∧
    (snapshotOp now (clear s)).2.entries = [] :=
  ⟨rfl, rfl, rfl, rfl, rfl, rfl, rfl, rfl, rfl⟩

/-- C8: under the reachable-state invariant, `compact` leaves at most
`max_entries` live entries, and the surviving canonical order is the
retained order with its first `excess` positions (the oldest entries)
dropped from the front. -/
theorem compact_enforces_max_entries (now : Int) (s : HashedBlackboard) (hwf : Wf s) :
    (compact now s).1.live.length ≤ s.config.max_entries ∧
    (compact now s).1.canonical_order =
      (compactMid now s).1.canonical_order.drop (compactExcess (compactMid now s).1) := by
  obtain ⟨hsub, hco, hcfg⟩ := compactMid_spec now s
  have hperm := compactMid_order_perm now s hwf
  have hkeys := (hsub.map Prod.fst).nodup hwf.1
  have hnodup : (compactMid now s).1.canonical_order.Nodup := by
    rw [hco]
    exact hwf.2.1.filter _
  have hev := compactEvict_spec (compactMid now s).1 hkeys hnodup hperm
  rw [compact_state now s]
  constructor
  · show (compactEvict (compactMid now s).1).1.live.length ≤ s.config.max_entries
    rw [← hcfg]
    exact hev.1
  · show (compactEvict (compactMid now s).1).1.canonical_order = _
    exact hev.2

/-- C8 witness: a store holding two live entries with `max_entries = 1`;
compaction evicts the front of the canonical order down to one entry. -/
theorem compact_enforces_max_entries_witness :
    Wf storeOverCap ∧
    ((compact 0 storeOverCap).1.live.length ≤ storeOverCap.config.max_entries ∧
      (compact 0 storeOverCap).1.canonical_order =
        (compactMid 0 storeOverCap).1.canonical_order.drop
          (compactExcess (compactMid 0 storeOverCap).1)) :=
  ⟨by decide, compact_enforces_max_entries 0 storeOverCap (by decide)⟩

/-- C1 (amended): `import_entries` performs no hash validation.  An entry
whose stored hash differs from the recomputed hash is nevertheless
imported whenever the stored hash is novel: the call returns `Ok` with
that hash (never a Serialization error) and the entry lands in pending. -/
theorem import_entries_no_hash_validation (s : HashedBlackboard) (e : BlackboardEntry)
    (_hmis : e.content_hash ≠ compute_hash e.author e.content e.parent_hash)
    (hl : containsKey e.content_hash s.live = false)
    (hp : containsKey e.content_hash s.pending = false) :
    (import_entries s [e]).2 = Except.ok [e.content_hash] ∧
    alookup e.content_hash (import_entries s [e]).1.pending = some e := by
  have hcond : (!containsKey e.content_hash s.live &&
      !containsKey e.content_hash s.pending) = true := by
    rw [hl, hp]
    rfl
  simp only [import_entries, List.foldl_cons, List.foldl_nil, hcond, if_true]
  constructor
  · simp
  · simp only [ne_eq, List.cons_ne_self, not_false_iff, if_pos]
    show alookup e.content_hash (ainsert e.content_hash e s.pending) = some e
    exact alookup_ainsert_self _ _ _

/-- C1 witness: `badEntry`'s stored hash re-hashes to a different value,
yet importing it into a fresh store succeeds and stages it. -/
theorem import_entries_no_hash_validation_witness :
    (badEntry.content_hash ≠
        compute_hash badEntry.author badEntry.content badEntry.parent_hash ∧
      containsKey badEntry.content_hash (HashedBlackboard.new cfgDefault).live = false ∧
      containsKey badEntry.content_hash (HashedBlackboard.new cfgDefault).pending = false) ∧
    ((import_entries (HashedBlackboard.new cfgDefault) [badEntry]).2 =
        Except.ok [badEntry.content_hash] ∧
      alookup badEntry.content_hash
        (import_entries (HashedBlackboard.new cfgDefault) [badEntry]).1.pending =
          some badEntry) :=
  ⟨⟨by decide, by decide, by decide⟩,
    import_entries_no_hash_validation (HashedBlackboard.new cfgDefault) badEntry
      (by decide) (by decide) (by decide)⟩

/-- C4 (amended): every query result entry passes the residual filter —
tombstone inclusion, expiry, minimum confidence and text substring — and
the result is truncated to `limit`; the author/parent/type predicates act
only through index selection and are not re-applied here. -/
theorem query_residual_predicates (s : HashedBlackboard) (q : BlackboardQuery)
    (now : Int) :
    ∃ r, query s q now = Except.ok r ∧ r.length ≤ q.limit ∧
      ∀ e ∈ r, queryFilter q now s.stmTtl e = true := by
  refine ⟨_, rfl, ?_, ?_⟩
  · exact List.length_take_le _ _
  · intro e he
    have hmem := (List.take_sublist _ _).subset he
    exact (List.mem_filter.mp hmem).2

/-- C4 witness: the amended theorem applied at the concrete store and
query of the counterexample. -/
theorem query_residual_predicates_witness :
    ∃ r, query storeFactA queryTypeAuthor 0 = Except.ok r ∧
      r.length ≤ queryTypeAuthor.limit ∧
      ∀ e ∈ r, queryFilter queryTypeAuthor 0 storeFactA.stmTtl e = true :=
  query_residual_predicates storeFactA queryTypeAuthor 0

/-- C5 (amended): posting a novel entry whose `supersedes` list names a
hash `h` that is present in *live* tombstones that live entry, so `get h`
afterwards reports `tombstoned = true`.  (Pending entries are not
tombstoned — see the counterexample.) -/
theorem post_supersedes_tombstones_live (s : HashedBlackboard) (e : BlackboardEntry)
    (h : Hash32) (hmem : h ∈ e.supersedes)
    (hlive : (alookup h s.live).isSome = true)
    (hnovel : (containsKey e.content_hash s.live ||
        containsKey e.content_hash s.pending) = false) :
    (getOp (post s e).1 h).map (fun x => x.tombstoned) = some true := by
  have hc : ¬(containsKey e.content_hash s.live ||
      containsKey e.content_hash s.pending) = true := by
    rw [hnovel]
    simp
  obtain ⟨hlv, _, _⟩ := post_novel_components s e hc
  have ht := tombstoneSuperseded_hits e.supersedes s.live h hmem hlive
  unfold getOp
  rw [hlv]
  cases halk : alookup h (tombstoneSuperseded e.supersedes s.live) with
  | none => rw [halk] at ht; simp at ht
  | some e' =>
    rw [halk] at ht
    simpa using ht

/-- C5 witness: superseding an entry that sits in live does tombstone it. -/
theorem post_supersedes_tombstones_live_witness :
    (hA ∈ entrySupB.supersedes ∧
      (alookup hA storeLiveSup.live).isSome = true ∧
      (containsKey entrySupB.content_hash storeLiveSup.live ||
        containsKey entrySupB.content_hash storeLiveSup.pending) = false) ∧
    (getOp (post storeLiveSup entrySupB).1 hA).map (fun x => x.tombstoned) = some true :=
  ⟨⟨by decide, by decide, by decide⟩,
    post_supersedes_tombstones_live storeLiveSup entrySupB hA
      (by decide) (by decide) (by decide)⟩

/-- C1 counterexample: `badEntry` re-hashes to a different value, yet
`import_entries` returns `Ok [hash]` — not a Serialization error — and
the store state changes (the entry is staged in pending). -/
theorem import_accepts_mismatched_hash :
    badEntry.content_hash ≠
      compute_hash badEntry.author badEntry.content badEntry.parent_hash ∧
    (import_entries (HashedBlackboard.new cfgDefault) [badEntry]).2 =
      Except.ok [badEntry.content_hash] ∧
    (import_entries (HashedBlackboard.new cfgDefault) [badEntry]).1.pending =
      [(badEntry.content_hash, badEntry)] ∧
    (import_entries (HashedBlackboard.new cfgDefault) [badEntry]).1 ≠
      HashedBlackboard.new cfgDefault := by
  refine ⟨by decide, by decide, by decide, ?_⟩
  intro h
  have := congrArg HashedBlackboard.pending h
  revert this
  decide

set_option maxRecDepth 10000 in
/-- C2 failing input: the renderer stores sections in a `BTreeMap` keyed by
label, so groups come out in alphabetical label order — "In Progress"
before "Observations" and "Reasoning Traces" before "Vetoed" — not in the
`type_order` sequence the claim states. -/
theorem render_groups_alphabetical :
    (renderSections [inProgressEntry, observationEntry]).map Prod.fst =
      ["In Progress", "Observations"] ∧
    (renderSections [vetoEntry, reasoningEntry]).map Prod.fst =
      ["Reasoning Traces", "Vetoed"] ∧
    (BlackboardSnapshot.new 1 [inProgressEntry, observationEntry]).rendered =
      "[Blackboard — 2 entries, thumbprint 80bcb9ef]\n\n## In Progress\n- [00000000] (A, conf=1.00): p\n\n## Observations\n- [01000000] (B, conf=1.00): o\n" := by
  refine ⟨by decide, by decide, by decide⟩

set_option maxRecDepth 10000 in
/-- C3 failing input: `advance_epoch` promotes pending entries in the
map's iteration order, which the `DashMap` API does not fix and does not
sort.  Both `iterAsc` and `iterDesc` are permutations of the same imported
pending set; promoting in `iterDesc` order appends `[hB, hA]` — not
ascending byte order — and the two promotion orders leave the two stores
with different canonical orders and different thumbprints. -/
theorem advance_epoch_not_hash_sorted :
    iterAsc.Perm storeImported.pending ∧
    iterDesc.Perm storeImported.pending ∧
    (advanceEpochWith iterAsc storeImported).canonical_order = [hA, hB] ∧
    (advanceEpochWith iterDesc storeImported).canonical_order = [hB, hA] ∧
    sortedByHashBytes (advanceEpochWith iterDesc storeImported).canonical_order = false ∧
    (advanceEpochWith iterDesc storeImported).canonical_order ≠
      (advanceEpochWith iterAsc storeImported).canonical_order ∧
    cacheThumbprintOp 0 (advanceEpochWith iterDesc storeImported) ≠
      cacheThumbprintOp 0 (advanceEpochWith iterAsc storeImported) := by
  refine ⟨by decide, by decide, by decide, by decide, by decide, by decide, by decide⟩

/-- C4 failing input: with both a type predicate and an author predicate,
candidates come from the `by_type` index and the author set is never
re-checked — the query returns `factA` although its author `"A"` is not in
the requested author set `["B"]`. -/
theorem query_skips_author_predicate :
    queryTypeAuthor.authors = some ["B"] ∧
    query storeFactA queryTypeAuthor 0 = Except.ok [factA] ∧
    factA.author = "A" := by
  refine ⟨rfl, by decide, rfl⟩

/-- C5 failing input: `entrySupA` is still pending when `entrySupB`
(which supersedes it) is posted; the supersession pass only rewrites
`live`, so `get hA` afterwards still reports `tombstoned = false`. -/
theorem supersession_misses_pending :
    hA ∈ entrySupB.supersedes ∧
    getOp (post storePendingSup entrySupB).1 hA = some entrySupA ∧
    entrySupA.tombstoned = false := by
  refine ⟨by decide, by decide, rfl⟩

/-- C7 failing input: with `stm_ttl_seconds = 0` an `Stm`-tier entry with
no explicit TTL counts as expired as soon as any time has elapsed
(`now - created_at > 0`), and snapshots drop it — although the config's
own documentation says `0 = no expiry`. -/
theorem stm_ttl_zero_expires_immediately :
    stmEntry.tombstoned = false ∧
    stmEntry.is_expired 1000 storeTtlZero.stmTtl = true ∧
    (buildSnapshot 1000 storeTtlZero).entries = [] ∧
    (snapshotOp 1000 storeTtlZero).2.entries = [] := by
  refine ⟨rfl, by decide, by decide, by decide⟩
